import Mathlib

/-!
Shallow embedding of `VocabularyManager`
(src/packages/concerto-vocabulary/lib/vocabularymanager.js).

The manager keeps a JavaScript object `this.vocabularies` whose key for every
stored value is always that value's `getIdentifier()` (every insertion in
`addVocabulary` uses `voc.getIdentifier()` as the key).  We therefore model the
store as the list of its values in insertion order (`Object.values` order);
the key of an entry is implicit, equal to its identifier.

The `Vocabulary` collaborator class (`vocabulary.js`) is not part of the
source excerpt; its narrow contract is modelled from the spec (sections 3
and 6): `getIdentifier()`, `getNamespace()`, `getLocale()`,
`getTerm(declarationName, propertyName?)` and `validate(modelFile)`.
-/

namespace Concerto

/-- Modelled from the spec: a model file (from the model provider collaborator)
exposes `getNamespace()`.  It is otherwise passed opaquely into a
vocabulary's `validate`, which we model as an abstract function field of the
vocabulary. -/
structure ModelFile where
  nspace : String

/-- Modelled from the spec: a parsed vocabulary document (`vocabulary.js` is
not in the source excerpt).  `terms` maps a declaration name and an optional
property name to a display string or null (`getTerm` contract), and
`vvalidate` models `validate(modelFile) → {missingTerms?, additionalTerms?}`,
the two members being optional. -/
structure Vocabulary where
  nspace : String
  locale : String
  terms : String → Option String → Option String
  vvalidate : ModelFile → Option (List String) × Option (List String)

/-- `getIdentifier()`: derived key, conventionally `namespace/locale`. -/
def Vocabulary.getIdentifier (v : Vocabulary) : String :=
  v.nspace ++ "/" ++ v.locale

def Vocabulary.getNamespace (v : Vocabulary) : String := v.nspace

def Vocabulary.getLocale (v : Vocabulary) : String := v.locale

def Vocabulary.getTerm (v : Vocabulary) (declarationName : String)
    (propertyName : Option String) : Option String :=
  v.terms declarationName propertyName

/-- Modelled from the spec: a serialized vocabulary document, abstracted as
the data it parses to (the YAML schema is owned by the missing parsing
collaborator). -/
structure VocabDoc where
  nspace : String
  locale : String
  terms : String → Option String → Option String
  vvalidate : ModelFile → Option (List String) × Option (List String)

/-- Modelled from the spec: parsing a document yields a vocabulary entry
whose locale is case-normalized to lowercase for indexing (spec section 3). -/
def Vocabulary.ofDoc (d : VocabDoc) : Vocabulary :=
  ⟨d.nspace, d.locale.toLower, d.terms, d.vvalidate⟩

/-- The store: `Object.values(this.vocabularies)` in insertion order. -/
abbrev Store := List Vocabulary

/-- `clear()`: `this.vocabularies = {}`. -/
def clear (_ : Store) : Store := []

/-- `removeVocabulary(namespace, locale)`:
`delete this.vocabularies[`${namespace}/${locale}`]` — the locale is used
verbatim, not lowercased.  Deleting a key removes the entries whose
(implicit) key, i.e. identifier, equals it. -/
def removeVocabulary (m : Store) (nspace locale : String) : Store :=
  m.filter (fun v => v.getIdentifier != nspace ++ "/" ++ locale)

/-- Error kinds of `addVocabulary` (spec section 7). -/
inductive VocError where
  | invalidArgument
  | duplicateEntry
deriving DecidableEq, Repr

/-- `addVocabulary(contents)`.  `contents` is abstracted as
`Option VocabDoc`: `none` models an empty/absent contents string
(JS `!contents`), `some d` a non-empty document parsing to `d`.  The result
pairs the store after the call with the error thrown, if any; both throws
happen before any mutation, so on error the store is returned unchanged. -/
def addVocabulary (m : Store) (contents : Option VocabDoc) :
    Store × Option VocError :=
  match contents with
  | none => (m, some .invalidArgument)
  | some d =>
    let voc := Vocabulary.ofDoc d
    if m.any (fun v => v.getIdentifier == voc.getIdentifier) then
      (m, some .duplicateEntry)
    else
      (m ++ [voc], none)

/-- `locale.substring(0, locale.lastIndexOf('-'))` on the character list:
the prefix strictly before the last `'-'`, or `none` when the string holds
no `'-'` (`lastIndexOf` returns `-1`). -/
def truncAtLastDash : List Char → Option (List Char)
  | [] => none
  | c :: cs =>
    match truncAtLastDash cs with
    | some t => some (c :: t)
    | none => if c = '-' then some [] else none

/-- String form of `truncAtLastDash`. -/
def truncAtLastDashStr (s : String) : Option String :=
  (truncAtLastDash s.data).map (fun l => String.mk l)

/-- Number of `'-'` separators in a locale tag. -/
def countDashes (s : String) : Nat := s.data.count '-'

theorem truncAtLastDash_eq_none {l : List Char} :
    truncAtLastDash l = none ↔ l.count '-' = 0 := by
  induction l with
  | nil => simp [truncAtLastDash]
  | cons c cs ih =>
    simp only [truncAtLastDash]
    cases h : truncAtLastDash cs with
    | some t =>
      simp only [List.count_cons]
      constructor
      · intro hc; exact absurd hc (by simp)
      · intro hc
        have : cs.count '-' = 0 := by omega
        have := ih.mpr this
        simp [this] at h
    | none =>
      have hcs : cs.count '-' = 0 := ih.mp h
      by_cases hc : c = '-'
      · subst hc; simp [hcs, List.count_cons]
      · simp [hc, hcs, List.count_cons]

theorem truncAtLastDash_count {l t : List Char}
    (h : truncAtLastDash l = some t) : t.count '-' + 1 = l.count '-' := by
  induction l generalizing t with
  | nil => simp [truncAtLastDash] at h
  | cons c cs ih =>
    simp only [truncAtLastDash] at h
    cases hcs : truncAtLastDash cs with
    | some t' =>
      rw [hcs] at h
      cases h
      have := ih hcs
      by_cases hc : c = '-' <;> simp [List.count_cons, hc] <;> omega
    | none =>
      rw [hcs] at h
      by_cases hc : c = '-'
      · subst hc
        simp at h
        subst h
        have := truncAtLastDash_eq_none.mp hcs
        simp [List.count_cons, this]
      · simp [hc] at h

theorem truncAtLastDashStr_count {s t : String}
    (h : truncAtLastDashStr s = some t) : countDashes t + 1 = countDashes s := by
  simp only [truncAtLastDashStr, Option.map_eq_some'] at h
  obtain ⟨l, hl, rfl⟩ := h
  simpa [countDashes] using truncAtLastDash_count hl

theorem truncAtLastDashStr_lt {s t : String}
    (h : truncAtLastDashStr s = some t) : countDashes t < countDashes s := by
  have := truncAtLastDashStr_count h
  omega

/-- Options object of `findVocabulary` / `getVocabulary`; an absent options
argument or `{}` is `localeMatcher = none`. -/
structure LookupOptions where
  localeMatcher : Option String := none

/-- `VocabularyManager.findVocabulary(requestedLocale, vocabularies, options)`:
the do/while loop, searching for the first candidate whose `getLocale()`
equals the current tag, truncating the tag at its last `'-'` between rounds
when `options?.localeMatcher === 'lookup'`. -/
def findVocabulary (requestedLocale : String) (vocabularies : List Vocabulary)
    (options : LookupOptions) : Option Vocabulary :=
  match vocabularies.find? (fun v => v.getLocale == requestedLocale) with
  | some voc => some voc
  | none =>
    if options.localeMatcher = some "lookup" then
      match h : truncAtLastDashStr requestedLocale with
      | some t => findVocabulary t vocabularies options
      | none => none
    else
      none
termination_by countDashes requestedLocale
decreasing_by exact truncAtLastDashStr_lt h

/-- `getVocabulariesForNamespace(namespace)`. -/
def getVocabulariesForNamespace (m : Store) (nspace : String) : List Vocabulary :=
  m.filter (fun v => v.getNamespace == nspace)

/-- `getVocabulariesForLocale(locale)`. -/
def getVocabulariesForLocale (m : Store) (locale : String) : List Vocabulary :=
  m.filter (fun v => v.getLocale == locale.toLower)

/-- `getVocabulary(namespace, locale, options)`. -/
def getVocabulary (m : Store) (nspace locale : String)
    (options : LookupOptions) : Option Vocabulary :=
  findVocabulary locale.toLower (getVocabulariesForNamespace m nspace) options

/-- `getTerm(namespace, locale, declarationName, propertyName)`: calls
`getVocabulary` with no options (exact-match mode), and on a miss truncates
the original locale at its last `'-'` and recurses. -/
def getTerm (m : Store) (nspace locale declarationName : String)
    (propertyName : Option String) : Option String :=
  let voc := getVocabulary m nspace locale {}
  let term : Option String :=
    match voc with
    | some v => v.getTerm declarationName propertyName
    | none => none
  match term with
  | some t => some t
  | none =>
    match h : truncAtLastDashStr locale with
    | some t => getTerm m nspace t declarationName propertyName
    | none => none
termination_by countDashes locale
decreasing_by exact truncAtLastDashStr_lt h

/-- The chain of progressively generalized tags:
`"en-us-x"` gives `["en-us-x", "en-us", "en"]`. -/
def localeChain (locale : String) : List String :=
  locale ::
    (match h : truncAtLastDashStr locale with
     | some t => localeChain t
     | none => [])
termination_by countDashes locale
decreasing_by exact truncAtLastDashStr_lt h

/-- Per-entry record of `validate`'s result. -/
structure VocValidationRecord where
  locale : String
  nspace : String
  missingTerms : List String
  additionalTerms : List String
deriving DecidableEq, Repr

/-- Modelled from the spec: the model provider collaborator
(`getModelFiles()` and `getModelFile(namespace)`), both kept abstract. -/
structure ModelManager where
  modelFiles : List ModelFile
  getModelFile : String → Option ModelFile

/-- Result of `validate`: the `vocabularies` object is modelled as the
association list of its entries in insertion order. -/
structure ValidationResult where
  missingVocabularies : List String
  additionalVocabularies : List Vocabulary
  vocabularies : List (String × VocValidationRecord)

/-- `validate(modelManager)`. -/
def validate (m : Store) (mm : ModelManager) : ValidationResult :=
  let missingVocabularies :=
    (mm.modelFiles.map (fun f =>
      if (getVocabulariesForNamespace m f.nspace).length = 0
      then some f.nspace else none)).filterMap id
  let additionalVocabularies :=
    m.filter (fun v => (mm.getModelFile v.getNamespace).isNone)
  let vocabularies :=
    m.filterMap (fun voc =>
      match mm.getModelFile voc.getNamespace with
      | some model =>
        let errors := voc.vvalidate model
        some (voc.getNamespace ++ "/" ++ voc.getLocale,
          { locale := voc.getLocale
            nspace := voc.getNamespace
            -- `[].concat(errors.missingTerms)` when present, else the
            -- initial `[]`
            missingTerms := errors.1.getD []
            additionalTerms := errors.2.getD [] })
      | none => none)
  ⟨missingVocabularies, additionalVocabularies, vocabularies⟩

/-- Fuel-bounded variant of `getTerm`, used to bound its recursion depth:
`none` means the fuel ran out, `some r` that the loop finished with result
`r` within the allotted number of rounds. -/
def getTermFuel : Nat → Store → String → String → String → Option String →
    Option (Option String)
  | 0, _, _, _, _, _ => none
  | fuel + 1, m, nspace, locale, declarationName, propertyName =>
    let voc := getVocabulary m nspace locale {}
    let term : Option String :=
      match voc with
      | some v => v.getTerm declarationName propertyName
      | none => none
    match term with
    | some t => some (some t)
    | none =>
      match truncAtLastDashStr locale with
      | some t => getTermFuel fuel m nspace t declarationName propertyName
      | none => some none

/-- The invariant of the store: at most one entry per identifier. -/
def distinctIdents (m : Store) : Prop :=
  (m.map Vocabulary.getIdentifier).Nodup

/-- A sample entry with locale `en`. -/
def enEntry : Vocabulary :=
  ⟨"org.acme", "en", fun _ _ => none, fun _ => (none, none)⟩

/-- A sample entry with locale `fr`. -/
def frEntry : Vocabulary :=
  ⟨"org.acme", "fr", fun _ _ => none, fun _ => (none, none)⟩

/-- A sample document with a mixed-case locale. -/
def sampleDoc : VocabDoc :=
  ⟨"org.acme", "en-GB", fun _ _ => none, fun _ => (none, none)⟩

/-- An entry whose namespace contains a `'/'`; its locale `c` is lowercase,
so its identifier `a/B/c` is a lowercased-locale identifier, yet it collides
with the key `removeVocabulary` builds from namespace `a` and locale `B/c`. -/
def slashEntry : Vocabulary :=
  ⟨"a/B", "c", fun _ _ => none, fun _ => (none, none)⟩

/-! ### Unfolding lemmas for the well-founded definitions -/

theorem findVocabulary_step (loc : String) (vocs : List Vocabulary) :
    findVocabulary loc vocs ⟨some "lookup"⟩ =
      match vocs.find? (fun v => v.getLocale == loc) with
      | some voc => some voc
      | none =>
        match truncAtLastDashStr loc with
        | some t => findVocabulary t vocs ⟨some "lookup"⟩
        | none => none := by
  rw [findVocabulary]
  split
  · rfl
  · simp only [reduceIte]
    split <;> rename_i ht <;> rw [ht]

theorem findVocabulary_exact (loc : String) (vocs : List Vocabulary)
    (opts : LookupOptions) (h : opts.localeMatcher ≠ some "lookup") :
    findVocabulary loc vocs opts = vocs.find? (fun v => v.getLocale == loc) := by
  rw [findVocabulary]
  cases hf : vocs.find? (fun v => v.getLocale == loc) <;> simp [h]

theorem getTerm_step (m : Store) (nspace locale declarationName : String)
    (propertyName : Option String) :
    getTerm m nspace locale declarationName propertyName =
      match (match getVocabulary m nspace locale {} with
             | some v => v.getTerm declarationName propertyName
             | none => none : Option String) with
      | some t => some t
      | none =>
        match truncAtLastDashStr locale with
        | some t => getTerm m nspace t declarationName propertyName
        | none => none := by
  rw [getTerm]
  split
  · rfl
  · split <;> rename_i ht <;> rw [ht]

theorem localeChain_step (locale : String) :
    localeChain locale =
      locale ::
        (match truncAtLastDashStr locale with
         | some t => localeChain t
         | none => []) := by
  rw [localeChain]
  split <;> rename_i ht <;> rw [ht]

theorem findVocabulary_lookup_chain (loc : String) (vocs : List Vocabulary) :
    findVocabulary loc vocs ⟨some "lookup"⟩ =
      (localeChain loc).findSome? (fun l => vocs.find? (fun v => v.getLocale == l)) := by
  generalize hg : countDashes loc = n
  induction n using Nat.strong_induction_on generalizing loc with
  | _ n ih =>
    rw [findVocabulary_step, localeChain_step]
    cases hf : vocs.find? (fun v => v.getLocale == loc) with
    | some v => simp [List.findSome?_cons, hf]
    | none =>
      cases ht : truncAtLastDashStr loc with
      | some t =>
        have hlt : countDashes t < n := hg ▸ truncAtLastDashStr_lt ht
        simp [List.findSome?_cons, hf, ht, ih _ hlt t rfl]
      | none =>
        simp [List.findSome?_cons, hf, ht]

theorem getTermFuel_sufficient (fuel : Nat) (m : Store)
    (nspace locale declarationName : String) (propertyName : Option String)
    (h : countDashes locale < fuel) :
    getTermFuel fuel m nspace locale declarationName propertyName =
      some (getTerm m nspace locale declarationName propertyName) := by
  induction fuel generalizing locale with
  | zero => omega
  | succ fuel ih =>
    rw [getTerm_step]
    simp only [getTermFuel]
    cases hterm : (match getVocabulary m nspace locale {} with
                   | some v => v.getTerm declarationName propertyName
                   | none => none : Option String) with
    | some t => rfl
    | none =>
      cases ht : truncAtLastDashStr locale with
      | some t =>
        have hlt : countDashes t < fuel := by
          have := truncAtLastDashStr_count ht
          omega
        exact ih t hlt
      | none => rfl

theorem takeWhile_append_stop (p : Char → Bool) (xs ys : List Char) (c : Char)
    (hc : p c = false) :
    (xs ++ c :: ys).takeWhile p = xs.takeWhile p := by
  induction xs with
  | nil => simp [List.takeWhile_cons, hc]
  | cons x t ih =>
    rw [List.cons_append, List.takeWhile_cons, List.takeWhile_cons]
    by_cases hx : p x = true
    · rw [if_pos hx, if_pos hx, ih]
    · rw [if_neg hx, if_neg hx]

theorem lastSegment_suffix {a b c d : List Char}
    (h : a ++ '/' :: b = c ++ '/' :: d) (hd : '/' ∉ d) : d <:+ b := by
  have e1 : (a ++ '/' :: b).reverse = b.reverse ++ '/' :: a.reverse := by simp
  have e2 : (c ++ '/' :: d).reverse = d.reverse ++ '/' :: c.reverse := by simp
  have hp : (('/' : Char) != '/') = false := by decide
  have hd' : ∀ x ∈ d.reverse, (x != '/') = true := by
    intro x hx
    rw [List.mem_reverse] at hx
    simp only [bne_iff_ne, ne_eq]
    intro he
    exact hd (he ▸ hx)
  have hdeq : d.reverse = b.reverse.takeWhile (fun x => x != '/') := by
    rw [← takeWhile_append_stop (fun x => x != '/') b.reverse a.reverse '/' hp,
      ← e1, h, e2,
      takeWhile_append_stop (fun x => x != '/') d.reverse c.reverse '/' hp,
      List.takeWhile_eq_self_iff.mpr hd']
  have hpre : d.reverse <+: b.reverse := by
    rw [hdeq]
    exact List.takeWhile_prefix _
  exact List.reverse_prefix.mp hpre

/-- The final `'/'`-free segment of a `namespace/locale` identifier is a
suffix of the locale — regardless of any `'/'` inside the namespaces or the
first locale. -/
theorem identifier_locale_suffix {ns1 l1 ns2 l2 : String}
    (h : ns1 ++ "/" ++ l1 = ns2 ++ "/" ++ l2)
    (h2 : '/' ∉ l2.data) : l2.data <:+ l1.data := by
  have hd := congrArg String.data h
  simp only [String.data_append] at hd
  have hd' : ns1.data ++ '/' :: l1.data = ns2.data ++ '/' :: l2.data := by
    simpa [List.append_assoc] using hd
  exact lastSegment_suffix hd' h2

/-! ### The claims -/

/-- Claim C1: `findVocabulary(requestedLocale, candidates, options)` returns
the first candidate whose locale exactly equals the current tag; when
`options.localeMatcher` is not `'lookup'` it makes exactly one exact-match
attempt and returns null on a miss; when it is `'lookup'` it repeatedly
truncates the tag at its last `'-'` (so the result is the first hit along
the progressive-generalization chain of the tag), returning null once no
`'-'` remains and no candidate matched; in particular for `'en-US-x'` and a
candidate with locale `'en'` under lookup mode the `'en'` candidate is
returned, and for `'en-US'`, a candidate with locale `'fr'` and empty
options, null is returned. -/
theorem claim1 :
    (∀ (loc : String) (vocs : List Vocabulary) (opts : LookupOptions),
      opts.localeMatcher ≠ some "lookup" →
      findVocabulary loc vocs opts = vocs.find? (fun v => v.getLocale == loc)) ∧
    (∀ (loc : String) (vocs : List Vocabulary),
      findVocabulary loc vocs ⟨some "lookup"⟩ =
        (localeChain loc).findSome?
          (fun l => vocs.find? (fun v => v.getLocale == l))) ∧
    (∀ en : Vocabulary, en.getLocale = "en" →
      findVocabulary "en-US-x" [en] ⟨some "lookup"⟩ = some en) ∧
    (∀ fr : Vocabulary, fr.getLocale = "fr" →
      findVocabulary "en-US" [fr] {} = none) := by
  refine ⟨findVocabulary_exact, findVocabulary_lookup_chain, ?_, ?_⟩
  · intro en hen
    rw [findVocabulary_step]
    simp only [List.find?, hen,
      show (("en" : String) == "en-US-x") = false from by decide,
      show truncAtLastDashStr "en-US-x" = some "en-US" from by decide]
    rw [findVocabulary_step]
    simp only [List.find?, hen,
      show (("en" : String) == "en-US") = false from by decide,
      show truncAtLastDashStr "en-US" = some "en" from by decide]
    rw [findVocabulary_step]
    simp [List.find?, hen]
  · intro fr hfr
    rw [findVocabulary_exact _ _ _ (by simp)]
    simp [List.find?, hfr]

theorem claim1_witness :
    findVocabulary "en-US-x" [enEntry] ⟨some "lookup"⟩ = some enEntry :=
  claim1.2.2.1 enEntry rfl

/-- Claim C2: `getTerm(namespace, locale, declarationName, propertyName?)`
performs its own outer locale-generalization loop independent of
`findVocabulary`'s lookup option: at each step it calls `getVocabulary`
without the `'lookup'` option — so the vocabulary lookup is a single
exact match against the lowercased locale — and asks the resulting entry for
the term; if no entry exists at that exact locale or the entry lacks the
term, it truncates the locale at its last `'-'` and recurses; when no `'-'`
remains and nothing was found it returns null (in particular it returns
null, never an error, when no vocabulary exists for the namespace). -/
theorem claim2 :
    (∀ (m : Store) (ns loc d : String) (p : Option String),
      getTerm m ns loc d p =
        match (match getVocabulary m ns loc {} with
               | some v => v.getTerm d p
               | none => none : Option String) with
        | some t => some t
        | none =>
          match truncAtLastDashStr loc with
          | some t => getTerm m ns t d p
          | none => none) ∧
    (∀ (m : Store) (ns loc : String),
      getVocabulary m ns loc {} =
        (getVocabulariesForNamespace m ns).find?
          (fun v => v.getLocale == loc.toLower)) ∧
    (∀ (m : Store) (ns loc d : String) (p : Option String),
      getVocabulariesForNamespace m ns = [] → getTerm m ns loc d p = none) := by
  refine ⟨getTerm_step, ?_, ?_⟩
  · intro m ns loc
    rw [getVocabulary, findVocabulary_exact _ _ _ (by simp)]
  · intro m ns loc d p h
    generalize hg : countDashes loc = n
    induction n using Nat.strong_induction_on generalizing loc with
    | _ n ih =>
      rw [getTerm_step]
      have hv : getVocabulary m ns loc {} = none := by
        rw [getVocabulary, h, findVocabulary_exact _ _ _ (by simp)]
        rfl
      rw [hv]
      cases ht : truncAtLastDashStr loc with
      | some t => exact ih _ (hg ▸ truncAtLastDashStr_lt ht) t rfl
      | none => rfl

theorem claim2_witness :
    getTerm [] "org.acme" "en-US" "Vehicle" none = none :=
  claim2.2.2 [] "org.acme" "en-US" "Vehicle" none rfl

/-- Claim C7: `getTerm` terminates for every input: each recursive call
strictly decreases the number of `'-'` separators in the locale argument,
so the recursion depth is bounded by the number of subtags of the original
locale (`countDashes + 1`) and the function always returns — the
fuel-bounded loop finishes within `countDashes locale + 1` rounds with the
result of `getTerm`. -/
theorem claim7 :
    (∀ (loc t : String), truncAtLastDashStr loc = some t →
      countDashes t < countDashes loc) ∧
    (∀ (m : Store) (ns loc d : String) (p : Option String),
      getTermFuel (countDashes loc + 1) m ns loc d p =
        some (getTerm m ns loc d p)) := by
  refine ⟨fun _ _ h => truncAtLastDashStr_lt h, ?_⟩
  intro m ns loc d p
  exact getTermFuel_sufficient _ m ns loc d p (Nat.lt_succ_self _)

theorem claim7_witness :
    countDashes "en" < countDashes "en-US" ∧
    getTermFuel (countDashes "en-US" + 1) [] "org.acme" "en-US" "Vehicle" none =
      some (getTerm [] "org.acme" "en-US" "Vehicle" none) :=
  ⟨claim7.1 "en-US" "en" (by decide),
   claim7.2 [] "org.acme" "en-US" "Vehicle" none⟩

/-- Claim C8: `clear()` resets the store to empty and is idempotent: after
`clear()`, `getVocabulariesForNamespace` and `getVocabulariesForLocale`
return empty sequences for every namespace and every locale, and clearing
twice leaves the same state as clearing once. -/
theorem claim8 : ∀ (m : Store) (ns loc : String),
    getVocabulariesForNamespace (clear m) ns = [] ∧
    getVocabulariesForLocale (clear m) loc = [] ∧
    clear (clear m) = clear m :=
  fun _ _ _ => ⟨rfl, rfl, rfl⟩

/-- Claim C9: `removeVocabulary(namespace, locale)` removes the entry keyed
`namespace/locale` if present and is an idempotent no-op otherwise: the
remaining entries are exactly those whose identifier differs from the key,
removing twice yields the same state as removing once, and removing a
non-existent entry changes nothing (and never fails: the operation is a
total function). -/
theorem claim9 : ∀ (m : Store) (ns loc : String),
    (∀ v : Vocabulary, v ∈ removeVocabulary m ns loc ↔
      v ∈ m ∧ v.getIdentifier ≠ ns ++ "/" ++ loc) ∧
    removeVocabulary (removeVocabulary m ns loc) ns loc =
      removeVocabulary m ns loc ∧
    ((∀ v ∈ m, v.getIdentifier ≠ ns ++ "/" ++ loc) →
      removeVocabulary m ns loc = m) := by
  intro m ns loc
  refine ⟨?_, ?_, ?_⟩
  · intro v
    simp [removeVocabulary, List.mem_filter]
  · simp [removeVocabulary, List.filter_filter]
  · intro h
    rw [removeVocabulary, List.filter_eq_self]
    intro v hv
    simpa using h v hv

theorem claim9_witness :
    removeVocabulary [enEntry] "org.acme" "fr" = [enEntry] :=
  (claim9 [enEntry] "org.acme" "fr").2.2
    (fun v hv => by
      simp only [List.mem_singleton] at hv
      subst hv
      decide)

/-- Claim C3: `addVocabulary(contents)` fails with `InvalidArgument` when
contents is empty or absent, and fails with `DuplicateEntry` when an entry
with the same identifier (derived from namespace+locale) is already
registered; in both failure cases the store state is unchanged (no partial
registration); otherwise the parsed entry is registered under its
identifier key. -/
theorem claim3 : ∀ (m : Store) (d : VocabDoc),
    addVocabulary m none = (m, some .invalidArgument) ∧
    ((∃ v ∈ m, v.getIdentifier = (Vocabulary.ofDoc d).getIdentifier) →
      addVocabulary m (some d) = (m, some .duplicateEntry)) ∧
    ((∀ v ∈ m, v.getIdentifier ≠ (Vocabulary.ofDoc d).getIdentifier) →
      addVocabulary m (some d) = (m ++ [Vocabulary.ofDoc d], none)) := by
  intro m d
  refine ⟨rfl, ?_, ?_⟩
  · rintro ⟨v, hv, hid⟩
    have hany :
        m.any (fun v => v.getIdentifier == (Vocabulary.ofDoc d).getIdentifier)
          = true :=
      List.any_eq_true.mpr ⟨v, hv, by simp [hid]⟩
    simp [addVocabulary, hany]
  · intro h
    have hany :
        m.any (fun v => v.getIdentifier == (Vocabulary.ofDoc d).getIdentifier)
          = false := by
      rw [List.any_eq_false]
      intro v hv
      simpa using h v hv
    simp [addVocabulary, hany]

theorem claim3_witness :
    addVocabulary [] (some sampleDoc) =
      ([Vocabulary.ofDoc sampleDoc], none) :=
  (claim3 [] sampleDoc).2.2 (fun v hv => by simp at hv)

/-- Claim C5: the store invariant — at most one vocabulary entry per
identifier — is preserved by every operation (`addVocabulary`,
`removeVocabulary`, `clear`); in particular a successful `addVocabulary`
never overwrites or duplicates an existing entry with the same identifier:
it appends a new entry whose identifier was not yet present. -/
theorem claim5 : ∀ m : Store, distinctIdents m →
    (∀ (contents : Option VocabDoc) (m' : Store) (e : Option VocError),
      addVocabulary m contents = (m', e) → distinctIdents m') ∧
    (∀ ns loc, distinctIdents (removeVocabulary m ns loc)) ∧
    distinctIdents (clear m) ∧
    (∀ (d : VocabDoc) (m' : Store), addVocabulary m (some d) = (m', none) →
      m' = m ++ [Vocabulary.ofDoc d] ∧
      (Vocabulary.ofDoc d).getIdentifier ∉ m.map Vocabulary.getIdentifier) := by
  intro m hm
  have hadd : ∀ (d : VocabDoc) (m' : Store) (e : Option VocError),
      addVocabulary m (some d) = (m', e) →
      (m' = m ∧ e = some .duplicateEntry) ∨
      (m' = m ++ [Vocabulary.ofDoc d] ∧ e = none ∧
        (Vocabulary.ofDoc d).getIdentifier ∉ m.map Vocabulary.getIdentifier) := by
    intro d m' e h
    simp only [addVocabulary] at h
    by_cases hany :
        m.any (fun v => v.getIdentifier == (Vocabulary.ofDoc d).getIdentifier)
          = true
    · rw [if_pos hany] at h
      cases h
      exact Or.inl ⟨rfl, rfl⟩
    · rw [if_neg hany] at h
      cases h
      refine Or.inr ⟨rfl, rfl, ?_⟩
      rw [List.any_eq_true] at hany
      push_neg at hany
      simp only [List.mem_map]
      rintro ⟨v, hv, hid⟩
      exact hany v hv (by simp [hid])
  refine ⟨?_, ?_, ?_, ?_⟩
  · rintro (_ | d) m' e h
    · cases h
      exact hm
    · rcases hadd d m' e h with ⟨rfl, -⟩ | ⟨rfl, -, hnotin⟩
      · exact hm
      · have hall : ∀ x ∈ m,
            ¬ x.getIdentifier = (Vocabulary.ofDoc d).getIdentifier := by
          intro x hx he
          exact hnotin (List.mem_map.mpr ⟨x, hx, he⟩)
        simpa [distinctIdents, List.nodup_append] using ⟨hm, hall⟩
  · intro ns loc
    exact ((List.filter_sublist m).map Vocabulary.getIdentifier).nodup hm
  · exact List.nodup_nil
  · intro d m' h
    rcases hadd d m' none h with ⟨-, he⟩ | ⟨rfl, -, hnotin⟩
    · cases he
    · exact ⟨rfl, hnotin⟩

theorem claim5_witness :
    distinctIdents (removeVocabulary [enEntry] "org.acme" "en") :=
  (claim5 [enEntry] (by simp [distinctIdents])).2.1 "org.acme" "en"

/-- Claim C6: round-trip — for every store, after a successful
`addVocabulary` of a document with a given namespace and locale,
`getVocabulary(namespace, locale)` returns a non-null entry whose
`getIdentifier()` equals `namespace/locale` with the locale case-normalized
to lowercase. -/
theorem claim6 : ∀ (m m' : Store) (d : VocabDoc),
    addVocabulary m (some d) = (m', none) →
    ∃ v, getVocabulary m' d.nspace d.locale {} = some v ∧
      v.getIdentifier = d.nspace ++ "/" ++ d.locale.toLower := by
  intro m m' d h
  simp only [addVocabulary] at h
  by_cases hany :
      m.any (fun v => v.getIdentifier == (Vocabulary.ofDoc d).getIdentifier)
        = true
  · rw [if_pos hany] at h
    cases h
  · rw [if_neg hany] at h
    cases h
    refine ⟨Vocabulary.ofDoc d, ?_, rfl⟩
    rw [getVocabulary, findVocabulary_exact _ _ _ (by simp),
      getVocabulariesForNamespace, List.filter_append]
    have hfv :
        List.filter (fun v => v.getNamespace == d.nspace) [Vocabulary.ofDoc d]
          = [Vocabulary.ofDoc d] := by
      simp [Vocabulary.ofDoc, Vocabulary.getNamespace]
    rw [hfv, List.find?_append]
    have hnone :
        (m.filter (fun v => v.getNamespace == d.nspace)).find?
          (fun v => v.getLocale == d.locale.toLower) = none := by
      rw [List.find?_eq_none]
      intro v hv hloc
      rw [List.mem_filter] at hv
      rw [List.any_eq_true] at hany
      refine hany ⟨v, hv.1, ?_⟩
      have hns : v.getNamespace = d.nspace := by simpa using hv.2
      have hlc : v.getLocale = d.locale.toLower := by simpa using hloc
      simp only [Vocabulary.getIdentifier, beq_iff_eq]
      rw [show v.nspace = v.getNamespace from rfl,
        show v.locale = v.getLocale from rfl, hns, hlc]
      rfl
    rw [hnone]
    simp [Vocabulary.ofDoc, Vocabulary.getLocale]

theorem claim6_witness :
    ∃ v, getVocabulary [Vocabulary.ofDoc sampleDoc]
        sampleDoc.nspace sampleDoc.locale {} = some v ∧
      v.getIdentifier = sampleDoc.nspace ++ "/" ++ sampleDoc.locale.toLower :=
  claim6 [] [Vocabulary.ofDoc sampleDoc] sampleDoc rfl

/-- Claim C4: for every model provider and store state,
`validate(modelProvider)` returns, without raising an error, a result whose
`missingVocabularies` are exactly the provider's namespaces with zero
matching vocabulary entries, whose `additionalVocabularies` are exactly the
registered entries whose namespace has no corresponding model file, and
whose `vocabularies` map contains one record (locale, namespace,
missingTerms, additionalTerms) per registered entry whose namespace has a
model file, keyed `namespace/locale`; entries whose namespace lacks a model
file get no per-entry record. -/
theorem claim4 : ∀ (m : Store) (mm : ModelManager),
    (∀ ns : String, ns ∈ (validate m mm).missingVocabularies ↔
      ((∃ f ∈ mm.modelFiles, f.nspace = ns) ∧
        getVocabulariesForNamespace m ns = [])) ∧
    (∀ v : Vocabulary, v ∈ (validate m mm).additionalVocabularies ↔
      (v ∈ m ∧ mm.getModelFile v.getNamespace = none)) ∧
    (∀ (key : String) (r : VocValidationRecord),
      (key, r) ∈ (validate m mm).vocabularies ↔
      ∃ v ∈ m, ∃ mf, mm.getModelFile v.getNamespace = some mf ∧
        key = v.getIdentifier ∧
        r = ⟨v.getLocale, v.getNamespace,
             (v.vvalidate mf).1.getD [], (v.vvalidate mf).2.getD []⟩) ∧
    (validate m mm).vocabularies.length =
      (m.filter (fun v => (mm.getModelFile v.getNamespace).isSome)).length := by
  intro m mm
  refine ⟨?_, ?_, ?_, ?_⟩
  · intro ns
    simp only [validate, List.mem_filterMap, List.mem_map, id]
    constructor
    · rintro ⟨o, ⟨mf, hmf, rfl⟩, ho⟩
      by_cases hz : (getVocabulariesForNamespace m mf.nspace).length = 0
      · rw [if_pos hz] at ho
        cases ho
        exact ⟨⟨mf, hmf, rfl⟩, List.length_eq_zero.mp hz⟩
      · rw [if_neg hz] at ho
        cases ho
    · rintro ⟨⟨mf, hmf, rfl⟩, hz⟩
      exact ⟨some mf.nspace, ⟨mf, hmf, by rw [if_pos (by simp [hz])]⟩, rfl⟩
  · intro v
    simp [validate, List.mem_filter, Option.isNone_iff_eq_none]
  · intro key r
    simp only [validate, List.mem_filterMap]
    constructor
    · rintro ⟨v, hv, hsome⟩
      cases hmf : mm.getModelFile v.getNamespace with
      | some mf =>
        rw [hmf] at hsome
        simp only [Option.some_inj, Prod.mk.injEq] at hsome
        exact ⟨v, hv, mf, hmf, hsome.1.symm, hsome.2.symm⟩
      | none =>
        rw [hmf] at hsome
        cases hsome
    · rintro ⟨v, hv, mf, hmf, rfl, rfl⟩
      refine ⟨v, hv, ?_⟩
      rw [hmf]
      simp [Vocabulary.getIdentifier, Vocabulary.getNamespace,
        Vocabulary.getLocale]
  · have haux : ∀ l : Store,
        (l.filterMap (fun voc =>
          match mm.getModelFile voc.getNamespace with
          | some model =>
            some (voc.getNamespace ++ "/" ++ voc.getLocale,
              ({ locale := voc.getLocale
                 nspace := voc.getNamespace
                 missingTerms := (voc.vvalidate model).1.getD []
                 additionalTerms := (voc.vvalidate model).2.getD [] } :
                VocValidationRecord))
          | none => none)).length =
        (l.filter (fun v => (mm.getModelFile v.getNamespace).isSome)).length := by
      intro l
      induction l with
      | nil => rfl
      | cons v t ih =>
        simp only [List.filterMap_cons, List.filter_cons]
        cases hmf : mm.getModelFile v.getNamespace with
        | none => simpa using ih
        | some mf => simpa using ih
    exact haux m

/-- Claim C10, counterexample: the claim as stated fails when a namespace
may contain `'/'`.  The store holds the single entry `slashEntry`, whose
locale `c` is lowercase (so it is keyed by the lowercased-locale identifier
`a/B/c`), and the locale argument `B/c` contains an uppercase letter, yet
`removeVocabulary` with namespace `a` and locale `B/c` builds the very same
key `a/B/c` and deletes the entry: the store does not stay unchanged. -/
theorem claim10_counterexample :
    (∀ v ∈ [slashEntry], ∀ ch ∈ (Vocabulary.getLocale v).data, ¬ ch.isUpper) ∧
    (∃ ch ∈ ("B/c" : String).data, ch.isUpper) ∧
    removeVocabulary [slashEntry] "a" "B/c" ≠ [slashEntry] := by
  refine ⟨?_, by decide, ?_⟩
  · intro v hv
    rw [List.mem_singleton] at hv
    subst hv
    decide
  · have h0 : removeVocabulary [slashEntry] "a" "B/c" = [] := rfl
    rw [h0]
    simp

/-- Claim C10, amended: `removeVocabulary` builds its key from namespace and
locale verbatim, without lowercasing the locale, while `getVocabulary`
lowercases it; hence for every store whose entries are keyed by
lowercased-locale identifiers, calling `removeVocabulary` with a locale
that contains an uppercase letter and no `'/'` (as BCP-47 tags contain
none) leaves the store completely unchanged, even when `getVocabulary`
with the same namespace and locale returns an entry. -/
theorem claim10_amended : ∀ (m : Store) (ns loc : String),
    (∀ v ∈ m, ∀ ch ∈ (Vocabulary.getLocale v).data, ¬ ch.isUpper) →
    (∃ ch ∈ loc.data, ch.isUpper) →
    '/' ∉ loc.data →
    removeVocabulary m ns loc = m ∧
    ((∃ v ∈ m, v.getNamespace = ns ∧ v.getLocale = loc.toLower) →
      (getVocabulary m ns loc {}).isSome = true) := by
  intro m ns loc hlower hupper hslash
  obtain ⟨cu, hcu, hcuU⟩ := hupper
  constructor
  · rw [removeVocabulary, List.filter_eq_self]
    intro v hv
    simp only [bne_iff_ne, ne_eq, decide_eq_true_eq]
    intro he
    have hsuff : loc.data <:+ (Vocabulary.getLocale v).data :=
      identifier_locale_suffix he hslash
    exact hlower v hv cu (hsuff.subset hcu) hcuU
  · rintro ⟨v, hv, hns, hl⟩
    rw [getVocabulary, findVocabulary_exact _ _ _ (by simp),
      List.find?_isSome]
    exact ⟨v, List.mem_filter.mpr ⟨hv, by simp [hns]⟩, by simp [hl]⟩

theorem claim10_witness :
    removeVocabulary [enEntry] "org.acme" "EN" = [enEntry] ∧
    ((∃ v ∈ [enEntry], v.getNamespace = "org.acme" ∧
        v.getLocale = ("EN" : String).toLower) →
      (getVocabulary [enEntry] "org.acme" "EN" {}).isSome = true) :=
  claim10_amended [enEntry] "org.acme" "EN"
    (fun v hv => by
      rw [List.mem_singleton] at hv
      subst hv
      decide)
    (by decide) (by decide)

end Concerto
